import Mathlib

/-!
Verification of the runtime core of the `mixin-types` library
(`src/index.ts`): the two functions `mixins` and `mixinsWith`.

The JavaScript runtime is:

  function mixins(...mixins) {
      return mixins.reduce((ExtBase, mixin) => mixin(ExtBase), Object);
  }
  function mixinsWith(Base, ...mixins) {
      return mixins.reduce((ExtBase, mixin) => mixin(ExtBase), Base);
  }

We shallowly embed this: the variadic argument list becomes a `List`,
`Array.prototype.reduce(cb, init)` becomes the structurally identical
left fold `jsReduce`, and JS class values become the inductive `JSClass`
whose `objectCtor` constructor stands for the global `Object`
constructor that `mixins` uses as its seed.

Since adders are arbitrary JS functions, we also embed the call under
richer effect semantics:
  * `jsReduceE` / `mixinsE` / `mixinsWithE`: adders may throw
    (return `Except.error`); `reduce` itself never catches, so a throw
    aborts the fold and propagates.
  * `runAddersTrace`: instruments the fold with the list of arguments
    each adder invocation receives, to express "each adder is applied
    exactly once, in order, to the cumulative result so far".
  * `runAddersEcnt`: instruments the throwing fold with the number of
    adder invocations performed.
  * `runAddersS` / `mixinsWithS`: adders may read and write an ambient
    heap `σ`; the fold itself threads the heap untouched, so all heap
    effects of a call are exactly the adders' own effects.
-/

/-- A JS class-like value: either the global `Object` constructor, or a
class produced by extending some base (tagged to tell classes apart). -/
inductive JSClass : Type where
  | objectCtor : JSClass
  | extended : Nat → JSClass → JSClass
deriving DecidableEq, Repr

/-- Shallow embedding of `arr.reduce(cb, init)` for a total callback:
the strict left-to-right fold of `cb` over `arr` starting from `init`. -/
def jsReduce {β α : Type _} (arr : List β) (cb : α → β → α) (init : α) : α :=
  match arr with
  | [] => init
  | x :: rest => jsReduce rest cb (cb init x)

/-- Embedding of `mixins(...mixins)`:
`mixins.reduce((ExtBase, mixin) => mixin(ExtBase), Object)`. -/
def mixins (adders : List (JSClass → JSClass)) : JSClass :=
  jsReduce adders (fun ExtBase mixin => mixin ExtBase) JSClass.objectCtor

/-- Embedding of `mixinsWith(Base, ...mixins)`:
`mixins.reduce((ExtBase, mixin) => mixin(ExtBase), Base)`. -/
def mixinsWith {α : Type _} (Base : α) (adders : List (α → α)) : α :=
  jsReduce adders (fun ExtBase mixin => mixin ExtBase) Base

/-- Embedding of `arr.reduce(cb, init)` when the callback may throw:
a thrown exception aborts the fold immediately (reduce has no
try/catch), and the exception propagates to the caller unmodified. -/
def jsReduceE {β α ε : Type _} (arr : List β) (cb : α → β → Except ε α)
    (init : α) : Except ε α :=
  match arr with
  | [] => Except.ok init
  | x :: rest =>
    match cb init x with
    | Except.ok b => jsReduceE rest cb b
    | Except.error e => Except.error e

/-- The call `mixins(...adders)` when adders may throw. -/
def mixinsE {ε : Type _} (adders : List (JSClass → Except ε JSClass)) :
    Except ε JSClass :=
  jsReduceE adders (fun ExtBase mixin => mixin ExtBase) JSClass.objectCtor

/-- The call `mixinsWith(Base, ...adders)` when adders may throw. -/
def mixinsWithE {α ε : Type _} (Base : α)
    (adders : List (α → Except ε α)) : Except ε α :=
  jsReduceE adders (fun ExtBase mixin => mixin ExtBase) Base

/-- Instrumented fold: together with the result, return the list of
arguments that the successive adder invocations receive. -/
def runAddersTrace {α : Type _} (adders : List (α → α)) (acc : α) :
    List α × α :=
  match adders with
  | [] => ([], acc)
  | f :: rest =>
    let p := runAddersTrace rest (f acc)
    (acc :: p.1, p.2)

/-- Instrumented throwing fold: together with the result, return how
many adder invocations were performed before returning or throwing. -/
def runAddersEcnt {α ε : Type _} (adders : List (α → Except ε α))
    (acc : α) : Except ε α × Nat :=
  match adders with
  | [] => (Except.ok acc, 0)
  | f :: rest =>
    match f acc with
    | Except.ok b =>
      let p := runAddersEcnt rest b
      (p.1, p.2 + 1)
    | Except.error e => (Except.error e, 1)

/-- Fold with heap-effectful adders: each adder maps a heap and the
current construct to a new heap and construct; the fold itself threads
the heap through without reading or writing it. -/
def runAddersS {σ α : Type _} (adders : List (σ → α → σ × α)) (s : σ)
    (acc : α) : σ × α :=
  match adders with
  | [] => (s, acc)
  | f :: rest =>
    let p := f s acc
    runAddersS rest p.1 p.2

/-- The call `mixinsWith(Base, ...adders)` under heap-effect semantics,
started in heap `s`. -/
def mixinsWithS {σ α : Type _} (s : σ) (Base : α)
    (adders : List (σ → α → σ × α)) : σ × α :=
  runAddersS adders s Base

-- Basic agreement and unfolding lemmas shared by the claim theorems.

theorem jsReduce_eq_foldl {β α : Type _} (arr : List β) (cb : α → β → α)
    (init : α) : jsReduce arr cb init = List.foldl cb init arr := by
  induction arr generalizing init with
  | nil => rfl
  | cons x rest ih => simp [jsReduce, List.foldl, ih]

theorem mixinsWith_nil {α : Type _} (Base : α) : mixinsWith Base [] = Base := rfl

theorem mixinsWith_cons {α : Type _} (Base : α) (f : α → α)
    (rest : List (α → α)) :
    mixinsWith Base (f :: rest) = mixinsWith (f Base) rest := rfl

theorem mixinsWith_append {α : Type _} (Base : α) (fs gs : List (α → α)) :
    mixinsWith Base (fs ++ gs) = mixinsWith (mixinsWith Base fs) gs := by
  induction fs generalizing Base with
  | nil => rfl
  | cons f rest ih => simp [mixinsWith_cons, ih]

theorem runAddersTrace_snd {α : Type _} (adders : List (α → α)) (acc : α) :
    (runAddersTrace adders acc).2 = mixinsWith acc adders := by
  induction adders generalizing acc with
  | nil => rfl
  | cons f rest ih => simp [runAddersTrace, mixinsWith_cons, ih]

theorem runAddersTrace_length {α : Type _} (adders : List (α → α)) (acc : α) :
    (runAddersTrace adders acc).1.length = adders.length := by
  induction adders generalizing acc with
  | nil => rfl
  | cons f rest ih => simp [runAddersTrace, ih]

theorem runAddersTrace_getElem {α : Type _} (adders : List (α → α)) (acc : α)
    (i : Nat) (hi : i < adders.length) :
    (runAddersTrace adders acc).1[i]? =
      some (mixinsWith acc (adders.take i)) := by
  induction adders generalizing acc i with
  | nil => simp at hi
  | cons f rest ih =>
    cases i with
    | zero => simp [runAddersTrace, mixinsWith_nil]
    | succ j =>
      have hj : j < rest.length := by simpa using hi
      simp [runAddersTrace, List.take, mixinsWith_cons, ih (f acc) j hj]

theorem mixinsWithE_nil {α ε : Type _} (Base : α) :
    mixinsWithE (ε := ε) Base [] = Except.ok Base := rfl

theorem mixinsWithE_cons_ok {α ε : Type _} {Base b : α}
    {f : α → Except ε α} (rest : List (α → Except ε α))
    (h : f Base = Except.ok b) :
    mixinsWithE Base (f :: rest) = mixinsWithE b rest := by
  simp [mixinsWithE, jsReduceE, h]

theorem mixinsWithE_cons_error {α ε : Type _} {Base : α} {e : ε}
    {f : α → Except ε α} (rest : List (α → Except ε α))
    (h : f Base = Except.error e) :
    mixinsWithE Base (f :: rest) = Except.error e := by
  simp [mixinsWithE, jsReduceE, h]

theorem mixinsWithE_append_ok {α ε : Type _} {Base b : α}
    {fs : List (α → Except ε α)} (gs : List (α → Except ε α))
    (h : mixinsWithE Base fs = Except.ok b) :
    mixinsWithE Base (fs ++ gs) = mixinsWithE b gs := by
  induction fs generalizing Base with
  | nil =>
    have hb : Base = b := by
      simpa [mixinsWithE_nil] using h
    simp [hb]
  | cons f rest ih =>
    cases hf : f Base with
    | ok c =>
      have h' : mixinsWithE c rest = Except.ok b := by
        rw [mixinsWithE_cons_ok rest hf] at h; exact h
      calc mixinsWithE Base ((f :: rest) ++ gs)
          = mixinsWithE c (rest ++ gs) := mixinsWithE_cons_ok _ hf
        _ = mixinsWithE b gs := ih h'
    | error e =>
      rw [mixinsWithE_cons_error rest hf] at h
      exact absurd h (by simp)

theorem runAddersEcnt_fst {α ε : Type _} (adders : List (α → Except ε α))
    (acc : α) : (runAddersEcnt adders acc).1 = mixinsWithE acc adders := by
  induction adders generalizing acc with
  | nil => rfl
  | cons f rest ih =>
    cases hf : f acc with
    | ok b => simp [runAddersEcnt, hf, ih, mixinsWithE_cons_ok rest hf]
    | error e => simp [runAddersEcnt, hf, mixinsWithE_cons_error rest hf]

theorem runAddersEcnt_append_ok {α ε : Type _} {acc b : α}
    {fs : List (α → Except ε α)} (gs : List (α → Except ε α))
    (h : mixinsWithE acc fs = Except.ok b) :
    runAddersEcnt (fs ++ gs) acc =
      ((runAddersEcnt gs b).1, fs.length + (runAddersEcnt gs b).2) := by
  induction fs generalizing acc with
  | nil =>
    have hb : acc = b := by
      simpa [mixinsWithE_nil] using h
    simp [hb]
  | cons f rest ih =>
    cases hf : f acc with
    | ok c =>
      have h' : mixinsWithE c rest = Except.ok b := by
        rw [mixinsWithE_cons_ok rest hf] at h; exact h
      simp [runAddersEcnt, hf, ih h']
      omega
    | error e =>
      rw [mixinsWithE_cons_error rest hf] at h
      exact absurd h (by simp)

-- Claim theorems.

/-- Claim C1: for every adder sequence, `mixins` and `mixinsWith` return the
strict left-to-right fold of the adders over the seed (`Object` resp. the
supplied base): each adder is applied exactly once (the invocation trace has
one entry per adder), in argument order, and the three-adder case gives
`h (g (f seed))`. -/
theorem mixins_eq_fold :
    (∀ (gs : List (JSClass → JSClass)),
      mixins gs = List.foldl (fun b f => f b) JSClass.objectCtor gs)
    ∧ (∀ (α : Type _) (X : α) (fs : List (α → α)),
      mixinsWith X fs = List.foldl (fun b f => f b) X fs)
    ∧ (∀ (α : Type _) (X : α) (fs : List (α → α)) (g : α → α),
      mixinsWith X (fs ++ [g]) = g (mixinsWith X fs))
    ∧ (∀ (α : Type _) (X : α) (fs : List (α → α)),
      (runAddersTrace fs X).1.length = fs.length
      ∧ (runAddersTrace fs X).2 = mixinsWith X fs)
    ∧ (∀ (α : Type _) (X : α) (f g h : α → α),
      mixinsWith X [f, g, h] = h (g (f X)))
    ∧ (∀ (f g h : JSClass → JSClass),
      mixins [f, g, h] = h (g (f JSClass.objectCtor))) := by
  refine ⟨fun gs => jsReduce_eq_foldl gs _ _,
    fun α X fs => jsReduce_eq_foldl fs _ _,
    fun α X fs g => ?_,
    fun α X fs => ⟨runAddersTrace_length fs X, runAddersTrace_snd fs X⟩,
    fun α X f g h => rfl,
    fun f g h => rfl⟩
  rw [mixinsWith_append]
  rfl

/-- Claim C2: on the empty adder sequence `mixins` returns the default root
construct (the `Object` constructor) unchanged, and `mixinsWith` returns the
supplied base unchanged, for every base. -/
theorem mixins_empty_identity :
    mixins [] = JSClass.objectCtor
    ∧ ∀ (α : Type _) (X : α), mixinsWith X [] = X :=
  ⟨rfl, fun _ X => mixinsWith_nil X⟩

/-- Claim C3: if the adder at position `|fs|` throws exception `e` (after the
prefix `fs` folded cleanly to `b`), the whole call returns that same
exception `e` unmodified, exactly `|fs| + 1` adder invocations happen (so no
adder after the throwing one is ever invoked), no ok-result is returned, and
the outcome is independent of the adders placed after the throwing one.
Instantiating the base at `JSClass.objectCtor` gives the `mixins` case. -/
theorem mixinsWithE_throw_propagation {α ε : Type _} (X b : α) (e : ε)
    (fs : List (α → Except ε α)) (g : α → Except ε α)
    (hs : List (α → Except ε α))
    (hpre : mixinsWithE X fs = Except.ok b)
    (hthrow : g b = Except.error e) :
    mixinsWithE X (fs ++ g :: hs) = Except.error e
    ∧ (runAddersEcnt (fs ++ g :: hs) X).2 = fs.length + 1
    ∧ ∀ hs2 : List (α → Except ε α),
        mixinsWithE X (fs ++ g :: hs2) = mixinsWithE X (fs ++ g :: hs) := by
  have herr : ∀ hs2 : List (α → Except ε α),
      mixinsWithE X (fs ++ g :: hs2) = Except.error e := by
    intro hs2
    rw [mixinsWithE_append_ok (g :: hs2) hpre]
    exact mixinsWithE_cons_error hs2 hthrow
  have hcnt : (runAddersEcnt (fs ++ g :: hs) X).2 = fs.length + 1 := by
    rw [runAddersEcnt_append_ok (g :: hs) hpre]
    simp [runAddersEcnt, hthrow]
  exact ⟨herr hs, hcnt, fun hs2 => (herr hs2).trans (herr hs).symm⟩

/-- Witness for claim C3, at the chain `ok (a+1)`, `throw 7`, `ok (a+100)`
over base `0`. -/
theorem mixinsWithE_throw_propagation_witness :
    mixinsWithE (0 : Nat)
      ([fun a => Except.ok (a + 1)]
        ++ (fun _ => Except.error (7 : Nat)) :: [fun a => Except.ok (a + 100)])
      = Except.error 7
    ∧ (runAddersEcnt
        ([fun a => Except.ok (a + 1)]
          ++ (fun _ => Except.error (7 : Nat)) :: [fun a => Except.ok (a + 100)])
        (0 : Nat)).2 = 2 := by
  have h := mixinsWithE_throw_propagation (0 : Nat) 1 (7 : Nat)
    [fun a => Except.ok (a + 1)] (fun _ => Except.error 7)
    [fun a => Except.ok (a + 100)] rfl rfl
  exact ⟨h.1, h.2.1⟩

/-- Claim C4: the fold raises no error of its own: every error in the result
originates from some adder invocation (at position `i`, applied to the fold
of the first `i` adders), and when every adder returns ok on every input the
whole call returns ok. -/
theorem mixinsWithE_no_own_error {α ε : Type _} (X : α)
    (adders : List (α → Except ε α)) :
    (∀ e : ε, mixinsWithE X adders = Except.error e →
      ∃ i, ∃ hi : i < adders.length, ∃ b,
        mixinsWithE X (adders.take i) = Except.ok b
        ∧ adders.get ⟨i, hi⟩ b = Except.error e)
    ∧ ((∀ f ∈ adders, ∀ a, ∃ b, f a = Except.ok b) →
      ∃ r, mixinsWithE X adders = Except.ok r) := by
  constructor
  · intro e herr
    induction adders generalizing X with
    | nil => simp [mixinsWithE_nil] at herr
    | cons f rest ih =>
      cases hf : f X with
      | ok c =>
        rw [mixinsWithE_cons_ok rest hf] at herr
        obtain ⟨i, hi, b, hpre, hget⟩ := ih c herr
        refine ⟨i + 1, by simpa using Nat.succ_lt_succ hi, b, ?_, hget⟩
        rw [List.take_succ_cons, mixinsWithE_cons_ok _ hf]
        exact hpre
      | error e2 =>
        rw [mixinsWithE_cons_error rest hf] at herr
        have he : e2 = e := by simpa using herr
        exact ⟨0, by simp, X, mixinsWithE_nil X, by simpa [he] using hf⟩
  · intro hok
    induction adders generalizing X with
    | nil => exact ⟨X, mixinsWithE_nil X⟩
    | cons f rest ih =>
      obtain ⟨b, hb⟩ := hok f (List.mem_cons_self f rest) X
      obtain ⟨r, hr⟩ := ih b fun f2 hf2 a => hok f2 (List.mem_cons_of_mem f hf2) a
      exact ⟨r, (mixinsWithE_cons_ok rest hb).trans hr⟩

/-- Witness for claim C4: an error-producing chain yields a responsible
adder position, and an everywhere-ok chain yields an ok result. -/
theorem mixinsWithE_no_own_error_witness :
    (∃ i, ∃ hi : i < ([fun _ => Except.error 5] :
        List (Nat → Except Nat Nat)).length, ∃ b,
      mixinsWithE (0 : Nat) (([fun _ => Except.error 5] :
          List (Nat → Except Nat Nat)).take i) = Except.ok b
      ∧ ([fun _ => Except.error 5] :
          List (Nat → Except Nat Nat)).get ⟨i, hi⟩ b = Except.error 5)
    ∧ (∃ r, mixinsWithE (0 : Nat) ([fun a => Except.ok (a + 1)] :
        List (Nat → Except Nat Nat)) = Except.ok r) := by
  constructor
  · exact (mixinsWithE_no_own_error (0 : Nat)
      ([fun _ => Except.error 5] : List (Nat → Except Nat Nat))).1 5 rfl
  · refine (mixinsWithE_no_own_error (0 : Nat) ([fun a => Except.ok (a + 1)] :
      List (Nat → Except Nat Nat))).2 ?_
    intro f hf a
    have hfa : f = fun a => Except.ok (a + 1) := by simpa using hf
    exact ⟨a + 1, by rw [hfa]⟩

/-- Claim C5: the runtime imposes no upper bound on chain length: for a
chain of any length `n` (including `n` beyond the static-validation bound
of 20) every one of the `n` adders is invoked (the trace has `n` entries)
and the result is the full fold; folding `n` copies of one adder iterates
it `n` times, checked concretely at `n = 25`. -/
theorem mixins_no_length_limit :
    (∀ (α : Type _) (X : α) (adders : List (α → α)),
      (runAddersTrace adders X).1.length = adders.length
      ∧ (runAddersTrace adders X).2 = mixinsWith X adders)
    ∧ (∀ (α : Type _) (X : α) (n : Nat) (f : α → α),
      mixinsWith X (List.replicate n f) = f^[n] X)
    ∧ mixinsWith (0 : Nat) (List.replicate 25 Nat.succ) = 25 := by
  have hrep : ∀ (α : Type _) (X : α) (n : Nat) (f : α → α),
      mixinsWith X (List.replicate n f) = f^[n] X := by
    intro α X n f
    induction n generalizing X with
    | zero => rfl
    | succ m ih =>
      rw [List.replicate_succ, mixinsWith_cons, ih,
        Function.iterate_succ_apply]
  exact ⟨fun α X adders =>
      ⟨runAddersTrace_length adders X, runAddersTrace_snd adders X⟩,
    hrep, by decide⟩

/-- Claim C6: `mixinsWith` does not itself mutate the base or retain state:
under heap-effect semantics, if every adder leaves the heap unchanged then
the whole call leaves the heap exactly as it started, and a second
identical call from the resulting heap returns the same heap and result as
the first. -/
theorem mixinsWith_no_base_mutation {σ α : Type _} (s : σ) (X : α)
    (adders : List (σ → α → σ × α))
    (hkeep : ∀ f ∈ adders, ∀ s2 a, (f s2 a).1 = s2) :
    (mixinsWithS s X adders).1 = s
    ∧ mixinsWithS (mixinsWithS s X adders).1 X adders
        = mixinsWithS s X adders := by
  have hfst : ∀ (s3 : σ) (X3 : α), (mixinsWithS s3 X3 adders).1 = s3 := by
    intro s3 X3
    induction adders generalizing s3 X3 with
    | nil => rfl
    | cons f rest ih =>
      have hf := hkeep f (List.mem_cons_self f rest)
      have ihr := ih (fun f2 hf2 => hkeep f2 (List.mem_cons_of_mem f hf2))
      simp only [mixinsWithS, runAddersS] at ihr ⊢
      rw [ihr, hf]
  refine ⟨hfst s X, ?_⟩
  rw [hfst s X]

/-- Witness for claim C6, with one heap-preserving adder over heap `3` and
base `0`. -/
theorem mixinsWith_no_base_mutation_witness :
    (mixinsWithS (3 : Nat) (0 : Nat) [fun s a => (s, a + 1)]).1 = 3
    ∧ mixinsWithS (mixinsWithS (3 : Nat) (0 : Nat)
          [fun s a => (s, a + 1)]).1 (0 : Nat) [fun s a => (s, a + 1)]
        = mixinsWithS (3 : Nat) (0 : Nat) [fun s a => (s, a + 1)] := by
  refine mixinsWith_no_base_mutation 3 0 [fun s a => (s, a + 1)] ?_
  intro f hf s2 a
  have hfa : f = fun s a => (s, a + 1) := by simpa using hf
  rw [hfa]

/-- Claim C7: the fold is deterministic: the result depends only on the
base and the adders in their order (equal inputs give equal outputs), and
during the fold the adder at position `i` is invoked on exactly the
cumulative result of adders `0..i-1` folded over the base. -/
theorem mixinsWith_deterministic {α : Type _} (X1 X2 : α)
    (as1 as2 : List (α → α)) (hX : X1 = X2) (has : as1 = as2) :
    mixinsWith X1 as1 = mixinsWith X2 as2
    ∧ ∀ (i : Nat), i < as1.length →
      (runAddersTrace as1 X1).1[i]? = some (mixinsWith X1 (as1.take i)) := by
  subst hX; subst has
  exact ⟨rfl, fun i hi => runAddersTrace_getElem as1 X1 i hi⟩

/-- Witness for claim C7, at base `0` and the two-adder chain
`succ, succ`: the repeated call agrees and the second invocation receives
the fold of the first adder. -/
theorem mixinsWith_deterministic_witness :
    mixinsWith (0 : Nat) [Nat.succ, Nat.succ]
      = mixinsWith (0 : Nat) [Nat.succ, Nat.succ]
    ∧ (runAddersTrace [Nat.succ, Nat.succ] (0 : Nat)).1[1]?
      = some (mixinsWith (0 : Nat) ([Nat.succ, Nat.succ].take 1)) := by
  have h := mixinsWith_deterministic (0 : Nat) (0 : Nat)
    [Nat.succ, Nat.succ] [Nat.succ, Nat.succ] rfl rfl
  exact ⟨h.1, h.2 1 (by simp)⟩

/-- Claim C8: `mixinsWith` is `mixins` with an explicit seed: `mixins` on
any adder sequence equals `mixinsWith` seeded with the `Object`
constructor, in both the total and the throwing semantics. -/
theorem mixins_eq_mixinsWith_object :
    (∀ adders : List (JSClass → JSClass),
      mixins adders = mixinsWith JSClass.objectCtor adders)
    ∧ ∀ (ε : Type _) (adders : List (JSClass → Except ε JSClass)),
      mixinsE adders = mixinsWithE JSClass.objectCtor adders :=
  ⟨fun _ => rfl, fun _ _ => rfl⟩

/-- Claim C9: the default root construct of `mixins` is the global
`Object` constructor itself: the empty chain returns that one distinguished
value (never a freshly extended class), and on a non-empty chain the first
adder is invoked on the `Object` constructor itself. -/
theorem mixins_default_root_is_object :
    mixins [] = JSClass.objectCtor
    ∧ (∀ (tag : Nat) (base : JSClass),
      mixins [] ≠ JSClass.extended tag base)
    ∧ ∀ (f : JSClass → JSClass) (fs : List (JSClass → JSClass)),
      (runAddersTrace (f :: fs) JSClass.objectCtor).1[0]?
        = some JSClass.objectCtor
      ∧ mixins (f :: fs) = mixinsWith (f JSClass.objectCtor) fs := by
  refine ⟨rfl, fun tag base h => JSClass.noConfusion h,
    fun f fs => ⟨?_, rfl⟩⟩
  simp [runAddersTrace]

/-- Claim C10: the fold splits over concatenation: folding `fs ++ gs` over
a base equals folding `gs` over the result of folding `fs`, so chains
compose incrementally without changing the result. -/
theorem mixinsWith_concat {α : Type _} (X : α) (fs gs : List (α → α)) :
    mixinsWith (mixinsWith X fs) gs = mixinsWith X (fs ++ gs) :=
  (mixinsWith_append X fs gs).symm
